import Mathlib

/-!
Shallow embedding of the `PackedData` container (DigitalExtinction/DePacked,
`src/lib.rs`): a growable dense vector of generation-tagged slots together
with an ordered multiset of free indices (`holes`, an `OrderedSkipList<usize>`
in the source, modelled as a sorted `List Nat` with ordered insertion and
head popping, which realizes the same insert / pop-min contract).

Generations are `NonZeroU32` in the source; they are modelled as `Nat`
carrying the u32 range `[1, 2^32 - 1]` as an invariant of reachable states,
with the `checked_add(1).unwrap_or(1)` increment made explicit in `wrapInc`.

Panics (`self.data[i]` out of bounds, the explicit `panic!` calls) are
modelled as `Option`/`Except` failures. `remove` returns
`Except (PackedData T) (T × PackedData T)`: the `error` payload is the state
of the container at the moment of the panic, which matters because the
source mutates the slot and the hole set before it validates the handle's
generation.
-/

namespace DePacked

/-- Largest value representable by a `u32` (and by `NonZeroU32`). -/
def genMax : Nat := 2 ^ 32 - 1

/-- The increment `generation.get().checked_add(1).unwrap_or(1)` performed by
`PackedData::remove`: on `u32` overflow the generation restarts at 1. -/
def wrapInc (g : Nat) : Nat := if g = genMax then 1 else g + 1

/-- One cell of backing storage: `Slot<T>` from the source, either
`Empty(NonZeroU32)` or `Used(NonZeroU32, T)`. -/
inductive Slot (T : Type) where
  | empty (generation : Nat)
  | used (generation : Nat) (value : T)
deriving DecidableEq

/-- `Slot::generation`: the generation tag of either variant. The source's
`Slot::used` and `Slot::empty` constructor functions are the constructors
themselves. -/
def Slot.generation : Slot T → Nat
  | .empty g => g
  | .used g _ => g

/-- A handle: `Item<T>` from the source, an `(index, generation)` pair.
The `PhantomData<T>` marker has no runtime content and is dropped here. -/
structure Item where
  index : Nat
  generation : Nat
deriving DecidableEq

/-- The container: `PackedData<T>` owns the slot vector `data` and the
ordered free-index multiset `holes`. `cap` models `Vec::capacity()` of
`data`. -/
structure PackedData (T : Type) where
  holes : List Nat
  data : List (Slot T)
  cap : Nat
deriving DecidableEq

namespace PackedData

variable {T : Type}

/-- `PackedData::with_max_capacity(capacity)`: `holes` is a fresh skip list
(its capacity argument is a performance hint only) and `data` is `Vec::new()`,
whose capacity is 0. -/
def withMaxCapacity (T : Type) (capacity : Nat) : PackedData T :=
  { holes := [], data := [], cap := 0 }

/-- `PackedData::capacity`: `self.data.capacity()`. -/
def capacity (s : PackedData T) : Nat := s.cap

/-- `PackedData::len`: `self.data.len() - self.holes.len()` (on reachable
states `holes.len() ≤ data.len()`, so the `usize` subtraction and the
truncated `Nat` subtraction agree). -/
def len (s : PackedData T) : Nat := s.data.length - s.holes.length

/-- `PackedData::is_empty`: `self.data.is_empty()`. -/
def isEmpty (s : PackedData T) : Bool := s.data.isEmpty

/-- Model of `Vec::push` on `data`: appends the slot and grows the capacity
when full. `Vec` guarantees `len ≤ capacity`; the precise growth factor is a
std-allocator detail, modelled here as doubling clamped below by the new
length. -/
def vecPush (s : PackedData T) (slot : Slot T) : PackedData T :=
  { s with
    data := s.data ++ [slot]
    cap := if s.data.length < s.cap then s.cap else max (2 * s.cap) (s.data.length + 1) }

/-- `PackedData::insert(item)`. `holes.pop_front()` is popping the head of
the sorted hole list; `self.data[index]` is a panicking index, modelled by
the `none` branch. -/
def insert (s : PackedData T) (item : T) : Option (Item × PackedData T) :=
  match s.holes with
  | index :: rest =>
    match s.data[index]? with
    | some slot0 =>
      let slot := Slot.used slot0.generation item
      let generation := slot.generation
      some (⟨index, generation⟩,
        { s with holes := rest, data := s.data.set index slot })
    | none => none
  | [] =>
    let index := s.data.length
    let generation := 1
    some (⟨index, generation⟩, vecPush s (Slot.used generation item))

/-- `PackedData::remove(item)`. The source indexes `self.data[item.index]`
(panic if out of bounds, before any mutation), computes the incremented
generation, swaps the slot for `Empty`, inserts the index into `holes`, and
only then validates the generation, panicking on mismatch or on an `Empty`
slot. The `error` payload is the container state at the panic point. -/
def remove (s : PackedData T) (item : Item) : Except (PackedData T) (T × PackedData T) :=
  match s.data[item.index]? with
  | none => .error s
  | some slot0 =>
    let generation := wrapInc slot0.generation
    let s' : PackedData T :=
      { s with
        data := s.data.set item.index (Slot.empty generation)
        holes := List.orderedInsert (· ≤ ·) item.index s.holes }
    match slot0 with
    | .used g inner => if g = item.generation then .ok (inner, s') else .error s'
    | .empty _ => .error s'

/-- `PackedData::get(item)`: bounds check via `data.get`, then generation
validation; `none` models the panic. No mutation. -/
def get (s : PackedData T) (item : Item) : Option T :=
  match s.data[item.index]? with
  | some (Slot.used g inner) => if g = item.generation then some inner else none
  | some (Slot.empty _) => none
  | none => none

/-- `PackedData::get_mut(item)`: identical validation to `get`, returning
the stored value (the `&mut T` of the source). -/
def getMut (s : PackedData T) (item : Item) : Option T :=
  match s.data[item.index]? with
  | some (Slot.used g inner) => if g = item.generation then some inner else none
  | some (Slot.empty _) => none
  | none => none

end PackedData

/-- One externally invocable mutating operation. -/
inductive Op (T : Type) where
  | ins (value : T)
  | rem (item : Item)
deriving DecidableEq

/-- One step of the container: a failing operation panics, ending the run
(`none`). -/
def step (op : Op T) (s : PackedData T) : Option (PackedData T) :=
  match op with
  | .ins v => (s.insert v).map Prod.snd
  | .rem h =>
    match s.remove h with
    | .ok (_, s') => some s'
    | .error _ => none

/-- Run a sequence of operations, stopping at the first panic. -/
def exec : List (Op T) → PackedData T → Option (PackedData T)
  | [], s => some s
  | op :: t, s =>
    match step op s with
    | some s' => exec t s'
    | none => none

/-- States reachable from a fresh container by a sequence of inserts and
successful removes. -/
def Reachable (s : PackedData T) : Prop :=
  ∃ (n : Nat) (t : List (Op T)), exec t (PackedData.withMaxCapacity T n) = some s

/-- Generation currently stored at index `i` (of either slot variant). -/
def genAt (s : PackedData T) (i : Nat) : Option Nat :=
  (s.data[i]?).map Slot.generation

/-- Structural invariant of the container (spec §3): the hole list is sorted
without duplicates, holes point exactly at the `Empty` slots, generations
stay in the `NonZeroU32` range, and the data length never exceeds the
capacity. -/
structure Inv (s : PackedData T) : Prop where
  sorted : s.holes.Sorted (· ≤ ·)
  nodup : s.holes.Nodup
  holesEmpty : ∀ i ∈ s.holes, ∃ g, s.data[i]? = some (Slot.empty g)
  emptyHoles : ∀ i g, s.data[i]? = some (Slot.empty g) → i ∈ s.holes
  genBounds : ∀ slot ∈ s.data, 1 ≤ slot.generation ∧ slot.generation ≤ genMax
  capOk : s.data.length ≤ s.cap

/-- Running `t` from `s` never takes the generation-wraparound branch of
`wrapInc` at index `i`: no successful remove hits index `i` while the slot
there holds the maximum generation. -/
def noWrapAt (i : Nat) : List (Op T) → PackedData T → Bool
  | [], _ => true
  | op :: t, s =>
    (match op with
     | .ins _ => true
     | .rem h => !(h.index == i && genAt s i == some genMax)) &&
    (match step op s with
     | some s' => noWrapAt i t s'
     | none => true)

namespace PackedData

variable {T : Type}

/-- The state `remove` builds before validating: slot `i` swapped for
`Empty (wrapInc g)` and `i` fed into the hole list (`g` being the generation
the slot held). -/
def afterRemove (s : PackedData T) (i g : Nat) : PackedData T :=
  { s with
    data := s.data.set i (Slot.empty (wrapInc g))
    holes := List.orderedInsert (· ≤ ·) i s.holes }

theorem insert_cons {s : PackedData T} {i : Nat} {rest : List Nat} {slot0 : Slot T}
    (hh : s.holes = i :: rest) (hs : s.data[i]? = some slot0) (v : T) :
    s.insert v = some (⟨i, slot0.generation⟩,
      { s with holes := rest, data := s.data.set i (Slot.used slot0.generation v) }) := by
  unfold insert
  rw [hh]
  simp only []
  rw [hs]
  rfl

theorem insert_nil {s : PackedData T} (hh : s.holes = []) (v : T) :
    s.insert v = some (⟨s.data.length, 1⟩, vecPush s (Slot.used 1 v)) := by
  unfold insert
  rw [hh]

theorem remove_oob {s : PackedData T} {h : Item} (hs : s.data[h.index]? = none) :
    s.remove h = .error s := by
  unfold remove
  rw [hs]

theorem remove_used {s : PackedData T} {h : Item} {g : Nat} {v : T}
    (hs : s.data[h.index]? = some (.used g v)) :
    s.remove h = if g = h.generation
      then .ok (v, afterRemove s h.index g)
      else .error (afterRemove s h.index g) := by
  unfold remove
  rw [hs]
  by_cases hg : g = h.generation <;> simp [hg, afterRemove, Slot.generation]

theorem remove_empty {s : PackedData T} {h : Item} {g : Nat}
    (hs : s.data[h.index]? = some (.empty g)) :
    s.remove h = .error (afterRemove s h.index g) := by
  unfold remove
  rw [hs]
  simp [afterRemove, Slot.generation]

theorem remove_ok_iff {s : PackedData T} {h : Item} {v : T} {s' : PackedData T} :
    s.remove h = .ok (v, s') ↔
      s.data[h.index]? = some (.used h.generation v) ∧
        s' = afterRemove s h.index h.generation := by
  constructor
  · intro hr
    cases hx : s.data[h.index]? with
    | none => rw [remove_oob hx] at hr; cases hr
    | some slot0 =>
      cases slot0 with
      | empty g => rw [remove_empty hx] at hr; cases hr
      | used g w =>
        rw [remove_used hx] at hr
        by_cases hg : g = h.generation
        · rw [if_pos hg] at hr
          simp only [Except.ok.injEq, Prod.mk.injEq] at hr
          obtain ⟨hv, hs'⟩ := hr
          subst hv
          subst hg
          exact ⟨rfl, hs'.symm⟩
        · rw [if_neg hg] at hr; cases hr
  · rintro ⟨hx, rfl⟩
    rw [remove_used hx, if_pos rfl]

theorem get_eq_some_iff {s : PackedData T} {h : Item} {v : T} :
    s.get h = some v ↔ s.data[h.index]? = some (.used h.generation v) := by
  unfold get
  cases hx : s.data[h.index]? with
  | none => simp
  | some slot0 =>
    cases slot0 with
    | empty g => simp
    | used g w =>
      by_cases hg : g = h.generation <;> simp [hg]

theorem getMut_eq_get (s : PackedData T) (h : Item) : s.getMut h = s.get h := by
  unfold getMut get
  rfl

theorem get_none_of_genAt_ne {s : PackedData T} {h : Item} {g : Nat}
    (hg : genAt s h.index = some g) (hne : g ≠ h.generation) : s.get h = none := by
  unfold genAt at hg
  unfold get
  cases hx : s.data[h.index]? with
  | none => rfl
  | some slot0 =>
    rw [hx] at hg
    cases slot0 with
    | empty g0 => rfl
    | used g0 w =>
      simp [Slot.generation] at hg
      subst hg
      simp [hne]

theorem remove_ne_ok_of_genAt_ne {s : PackedData T} {h : Item} {g : Nat}
    (hg : genAt s h.index = some g) (hne : g ≠ h.generation) :
    ∀ r : T × PackedData T, s.remove h ≠ .ok r := by
  rintro ⟨v, s'⟩ hr
  rcases remove_ok_iff.mp hr with ⟨hx, -⟩
  unfold genAt at hg
  rw [hx] at hg
  simp [Slot.generation] at hg
  exact hne hg.symm

end PackedData

theorem genMax_pos : 1 ≤ genMax := by
  unfold genMax
  norm_num

theorem wrapInc_bounds {g : Nat} (h1 : 1 ≤ g) (h2 : g ≤ genMax) :
    1 ≤ wrapInc g ∧ wrapInc g ≤ genMax := by
  unfold wrapInc
  by_cases hg : g = genMax
  · rw [if_pos hg]
    exact ⟨le_refl 1, genMax_pos⟩
  · rw [if_neg hg]
    omega

theorem wrapInc_gt {g : Nat} (h : g ≠ genMax) : g < wrapInc g := by
  unfold wrapInc
  rw [if_neg h]
  omega

theorem inv_init (T : Type) (n : Nat) : Inv (PackedData.withMaxCapacity T n) := by
  refine ⟨?_, ?_, ?_, ?_, ?_, ?_⟩ <;> simp [PackedData.withMaxCapacity]

theorem inv_insert {T : Type} {s : PackedData T} (hInv : Inv s) {v : T} {h : Item}
    {s' : PackedData T} (hins : s.insert v = some (h, s')) : Inv s' := by
  cases hh : s.holes with
  | cons i rest =>
    obtain ⟨g, hg⟩ := hInv.holesEmpty i (by rw [hh]; exact List.mem_cons_self i rest)
    rw [PackedData.insert_cons hh hg v] at hins
    simp only [Option.some.injEq, Prod.mk.injEq] at hins
    obtain ⟨-, rfl⟩ := hins
    have hi_lt : i < s.data.length := (List.getElem?_eq_some.mp hg).1
    have hnodup := hInv.nodup
    rw [hh] at hnodup
    have hnotin : i ∉ rest := (List.nodup_cons.mp hnodup).1
    refine ⟨?_, ?_, ?_, ?_, ?_, ?_⟩
    · have := hInv.sorted
      rw [hh] at this
      exact (List.sorted_cons.mp this).2
    · exact (List.nodup_cons.mp hnodup).2
    · intro j hj
      obtain ⟨g', hg'⟩ := hInv.holesEmpty j (by rw [hh]; exact List.mem_cons_of_mem i hj)
      have hne : i ≠ j := fun e => hnotin (e ▸ hj)
      exact ⟨g', by rw [List.getElem?_set_ne hne]; exact hg'⟩
    · intro j g' hj
      by_cases e : i = j
      · subst e
        rw [List.getElem?_set_self hi_lt] at hj
        simp [Slot.generation] at hj
      · rw [List.getElem?_set_ne e] at hj
        have := hInv.emptyHoles j g' hj
        rw [hh] at this
        rcases List.mem_cons.mp this with rfl | hmem
        · exact absurd rfl e
        · exact hmem
    · intro slot hslot
      rcases List.mem_or_eq_of_mem_set hslot with hmem | rfl
      · exact hInv.genBounds slot hmem
      · have hmem0 : Slot.empty g ∈ s.data := by
          obtain ⟨hlt, he⟩ := List.getElem?_eq_some.mp hg
          exact he ▸ List.getElem_mem hlt
        have := hInv.genBounds _ hmem0
        simpa [Slot.generation] using this
    · simpa using hInv.capOk
  | nil =>
    rw [PackedData.insert_nil hh v] at hins
    simp only [Option.some.injEq, Prod.mk.injEq] at hins
    obtain ⟨-, rfl⟩ := hins
    refine ⟨?_, ?_, ?_, ?_, ?_, ?_⟩
    · simpa [PackedData.vecPush, hh] using List.sorted_nil
    · simp [PackedData.vecPush, hh]
    · intro j hj
      simp [PackedData.vecPush, hh] at hj
    · intro j g' hj
      simp only [PackedData.vecPush] at hj ⊢
      rcases Nat.lt_or_ge j s.data.length with hlt | hge
      · rw [List.getElem?_append_left hlt] at hj
        exact hInv.emptyHoles j g' hj
      · rcases Nat.eq_or_lt_of_le hge with he | hgt
        · rw [← he, List.getElem?_concat_length] at hj
          simp at hj
        · have hn : (s.data ++ [Slot.used 1 v])[j]? = none :=
            List.getElem?_eq_none (by simp; omega)
          rw [hn] at hj
          cases hj
    · intro slot hslot
      simp only [PackedData.vecPush] at hslot
      rcases List.mem_append.mp hslot with hmem | hmem
      · exact hInv.genBounds slot hmem
      · have : slot = Slot.used 1 v := List.mem_singleton.mp hmem
        subst this
        exact ⟨le_refl 1, genMax_pos⟩
    · simp only [PackedData.vecPush, List.length_append, List.length_singleton]
      by_cases hc : s.data.length < s.cap
      · rw [if_pos hc]
        omega
      · rw [if_neg hc]
        exact le_max_right _ _

theorem inv_remove {T : Type} {s : PackedData T} (hInv : Inv s) {h : Item} {v : T}
    {s' : PackedData T} (hrem : s.remove h = .ok (v, s')) : Inv s' := by
  obtain ⟨hx, rfl⟩ := PackedData.remove_ok_iff.mp hrem
  have hi_lt : h.index < s.data.length := (List.getElem?_eq_some.mp hx).1
  have hnotin : h.index ∉ s.holes := by
    intro hmem
    obtain ⟨g', hg'⟩ := hInv.holesEmpty h.index hmem
    rw [hx] at hg'
    simp at hg'
  have hused_mem : Slot.used h.generation v ∈ s.data := by
    obtain ⟨hlt, he⟩ := List.getElem?_eq_some.mp hx
    exact he ▸ List.getElem_mem hlt
  have hgb := hInv.genBounds _ hused_mem
  simp only [Slot.generation] at hgb
  refine ⟨?_, ?_, ?_, ?_, ?_, ?_⟩
  · exact List.Sorted.orderedInsert _ _ hInv.sorted
  · exact ((List.perm_orderedInsert _ h.index s.holes).nodup_iff).mpr
      (List.nodup_cons.mpr ⟨hnotin, hInv.nodup⟩)
  · intro j hj
    rcases (List.mem_orderedInsert _).mp hj with rfl | hmem
    · exact ⟨wrapInc h.generation, List.getElem?_set_self hi_lt⟩
    · have hne : h.index ≠ j := fun e => hnotin (e ▸ hmem)
      obtain ⟨g', hg'⟩ := hInv.holesEmpty j hmem
      refine ⟨g', ?_⟩
      show (s.data.set h.index (Slot.empty (wrapInc h.generation)))[j]? = some (Slot.empty g')
      rw [List.getElem?_set_ne hne]
      exact hg'
  · intro j g' hj
    simp only [PackedData.afterRemove] at hj ⊢
    by_cases e : h.index = j
    · exact (List.mem_orderedInsert _).mpr (Or.inl e.symm)
    · rw [List.getElem?_set_ne e] at hj
      exact (List.mem_orderedInsert _).mpr (Or.inr (hInv.emptyHoles j g' hj))
  · intro slot hslot
    rcases List.mem_or_eq_of_mem_set hslot with hmem | rfl
    · exact hInv.genBounds slot hmem
    · have := wrapInc_bounds hgb.1 hgb.2
      simpa [Slot.generation] using this
  · simpa [PackedData.afterRemove] using hInv.capOk

theorem inv_step {T : Type} {op : Op T} {s s' : PackedData T} (hInv : Inv s)
    (hstep : step op s = some s') : Inv s' := by
  cases op with
  | ins v =>
    simp only [step] at hstep
    cases hi : s.insert v with
    | none => rw [hi] at hstep; cases hstep
    | some r =>
      obtain ⟨h, s''⟩ := r
      rw [hi] at hstep
      simp only [Option.map_some', Option.some.injEq] at hstep
      subst hstep
      exact inv_insert hInv hi
  | rem h =>
    simp only [step] at hstep
    cases hr : s.remove h with
    | error e => rw [hr] at hstep; cases hstep
    | ok r =>
      obtain ⟨v, s''⟩ := r
      rw [hr] at hstep
      simp only [Option.some.injEq] at hstep
      subst hstep
      exact inv_remove hInv hr

theorem inv_exec {T : Type} {t : List (Op T)} {s s' : PackedData T} (hInv : Inv s)
    (hexec : exec t s = some s') : Inv s' := by
  induction t generalizing s with
  | nil =>
    unfold exec at hexec
    simp only [Option.some.injEq] at hexec
    exact hexec ▸ hInv
  | cons op t ih =>
    unfold exec at hexec
    cases hs : step op s with
    | none => rw [hs] at hexec; cases hexec
    | some s1 =>
      rw [hs] at hexec
      exact ih (inv_step hInv hs) hexec

theorem reachable_inv {T : Type} {s : PackedData T} (hR : Reachable s) : Inv s := by
  obtain ⟨n, t, ht⟩ := hR
  exact inv_exec (inv_init T n) ht

theorem insert_cons_none {T : Type} {s : PackedData T} {j : Nat} {rest : List Nat}
    (hh : s.holes = j :: rest) (hx : s.data[j]? = none) (v : T) : s.insert v = none := by
  unfold PackedData.insert
  rw [hh]
  simp only []
  rw [hx]

theorem insert_eq_some_elim {T : Type} {s : PackedData T} {v : T} {h : Item}
    {s' : PackedData T} (hins : s.insert v = some (h, s')) :
    (∃ rest slot0, s.holes = h.index :: rest ∧ s.data[h.index]? = some slot0 ∧
      h.generation = slot0.generation ∧
      s' = { s with holes := rest,
                    data := s.data.set h.index (Slot.used slot0.generation v) }) ∨
    (s.holes = [] ∧ h.index = s.data.length ∧ h.generation = 1 ∧
      s' = PackedData.vecPush s (Slot.used 1 v)) := by
  cases hh : s.holes with
  | nil =>
    rw [PackedData.insert_nil hh v] at hins
    simp only [Option.some.injEq, Prod.mk.injEq] at hins
    obtain ⟨hitem, rfl⟩ := hins
    exact Or.inr ⟨rfl, congrArg Item.index hitem.symm, congrArg Item.generation hitem.symm, rfl⟩
  | cons j rest =>
    cases hx : s.data[j]? with
    | none => rw [insert_cons_none hh hx v] at hins; cases hins
    | some slot0 =>
      rw [PackedData.insert_cons hh hx v] at hins
      simp only [Option.some.injEq, Prod.mk.injEq] at hins
      obtain ⟨hitem, rfl⟩ := hins
      have hidx : h.index = j := congrArg Item.index hitem.symm
      have hgen : h.generation = slot0.generation := congrArg Item.generation hitem.symm
      subst hidx
      exact Or.inl ⟨rest, slot0, rfl, hx, hgen, rfl⟩

theorem genAt_lt_length {T : Type} {s : PackedData T} {i g : Nat}
    (h : genAt s i = some g) : i < s.data.length := by
  unfold genAt at h
  cases hx : s.data[i]? with
  | none => rw [hx] at h; cases h
  | some slot => exact (List.getElem?_eq_some.mp hx).1

theorem step_genAt_mono {T : Type} {op : Op T} {s s' : PackedData T}
    (hstep : step op s = some s') {i g : Nat} (hg : genAt s i = some g)
    (hnw : ∀ h : Item, op = .rem h → h.index = i → g ≠ genMax) :
    ∃ g', genAt s' i = some g' ∧ g ≤ g' := by
  cases op with
  | ins v =>
    simp only [step] at hstep
    cases hi : s.insert v with
    | none => rw [hi] at hstep; cases hstep
    | some r =>
      obtain ⟨h, s''⟩ := r
      rw [hi] at hstep
      simp only [Option.map_some', Option.some.injEq] at hstep
      subst hstep
      rcases insert_eq_some_elim hi with ⟨rest, slot0, hh, hx, hgen, rfl⟩ | ⟨hh, hidx, hgen, rfl⟩
      · by_cases e : h.index = i
        · subst e
          have hlt := (List.getElem?_eq_some.mp hx).1
          have hgeq : slot0.generation = g := by
            have hg' : (s.data[h.index]?).map Slot.generation = some g := hg
            rw [hx] at hg'
            simpa using hg'
          refine ⟨g, ?_, le_refl g⟩
          show ((s.data.set h.index (Slot.used slot0.generation v))[h.index]?).map
            Slot.generation = some g
          rw [List.getElem?_set_self hlt]
          simp [Slot.generation, hgeq]
          exact hgeq
        · refine ⟨g, ?_, le_refl g⟩
          show ((s.data.set h.index (Slot.used slot0.generation v))[i]?).map
            Slot.generation = some g
          rw [List.getElem?_set_ne e]
          exact hg
      · refine ⟨g, ?_, le_refl g⟩
        have hlt : i < s.data.length := genAt_lt_length hg
        show ((s.data ++ [Slot.used 1 v])[i]?).map Slot.generation = some g
        rw [List.getElem?_append_left hlt]
        exact hg
  | rem h =>
    simp only [step] at hstep
    cases hr : s.remove h with
    | error e => rw [hr] at hstep; cases hstep
    | ok r =>
      obtain ⟨v, s''⟩ := r
      rw [hr] at hstep
      simp only [Option.some.injEq] at hstep
      subst hstep
      obtain ⟨hx, rfl⟩ := PackedData.remove_ok_iff.mp hr
      by_cases e : h.index = i
      · subst e
        have hlt := (List.getElem?_eq_some.mp hx).1
        have hgeq : h.generation = g := by
          have hg' : (s.data[h.index]?).map Slot.generation = some g := hg
          rw [hx] at hg'
          simpa [Slot.generation] using hg'
        have hne : g ≠ genMax := hnw h rfl rfl
        refine ⟨wrapInc g, ?_, le_of_lt (wrapInc_gt hne)⟩
        show ((s.data.set h.index (Slot.empty (wrapInc h.generation)))[h.index]?).map
          Slot.generation = some (wrapInc g)
        rw [List.getElem?_set_self hlt]
        simp [Slot.generation, hgeq]
      · refine ⟨g, ?_, le_refl g⟩
        show ((s.data.set h.index (Slot.empty (wrapInc h.generation)))[i]?).map
          Slot.generation = some g
        rw [List.getElem?_set_ne e]
        exact hg

theorem exec_genAt_mono {T : Type} {t : List (Op T)} {s s' : PackedData T} {i g : Nat}
    (hexec : exec t s = some s') (hg : genAt s i = some g)
    (hnw : noWrapAt i t s = true) :
    ∃ g', genAt s' i = some g' ∧ g ≤ g' := by
  induction t generalizing s g with
  | nil =>
    unfold exec at hexec
    simp only [Option.some.injEq] at hexec
    exact ⟨g, hexec ▸ hg, le_refl g⟩
  | cons op t ih =>
    unfold exec at hexec
    unfold noWrapAt at hnw
    cases hs : step op s with
    | none => rw [hs] at hexec; cases hexec
    | some s1 =>
      rw [hs] at hexec hnw
      rw [Bool.and_eq_true] at hnw
      obtain ⟨hnw1, hnw2⟩ := hnw
      have hcond : ∀ h : Item, op = .rem h → h.index = i → g ≠ genMax := by
        intro h heq hidx
        subst heq
        simp only [Bool.not_eq_true'] at hnw1
        rw [Bool.and_eq_false_iff] at hnw1
        rcases hnw1 with h1 | h1
        · exact absurd (by simp [hidx]) (by simp [h1] : ¬(h.index == i) = true)
        · intro hgmax
          rw [hg] at h1
          simp [hgmax] at h1
      obtain ⟨g1, hg1, hle1⟩ := step_genAt_mono hs hg hcond
      obtain ⟨g', hg', hle2⟩ := ih hexec hg1 hnw2
      exact ⟨g', hg', le_trans hle1 hle2⟩

/-- C2: Round trip: inserting value `v` and immediately calling `get` (or
`get_mut`) on the returned handle yields `v`, and `remove` on that handle
succeeds, returning `v` (the stored value is handed back by the `ok`
result). -/
theorem round_trip {T : Type} {s : PackedData T} {v : T} {h : Item} {s' : PackedData T}
    (hins : s.insert v = some (h, s')) :
    s'.get h = some v ∧ s'.getMut h = some v ∧
    s'.remove h = .ok (v, PackedData.afterRemove s' h.index h.generation) := by
  have hdata : s'.data[h.index]? = some (Slot.used h.generation v) := by
    rcases insert_eq_some_elim hins with ⟨rest, slot0, hh, hx, hgen, rfl⟩ | ⟨hh, hidx, hgen, rfl⟩
    · have hlt := (List.getElem?_eq_some.mp hx).1
      show (s.data.set h.index (Slot.used slot0.generation v))[h.index]? =
        some (Slot.used h.generation v)
      rw [List.getElem?_set_self hlt, hgen]
    · show (s.data ++ [Slot.used 1 v])[h.index]? = some (Slot.used h.generation v)
      rw [hidx, hgen]
      exact List.getElem?_concat_length s.data _
  refine ⟨PackedData.get_eq_some_iff.mpr hdata, ?_, PackedData.remove_ok_iff.mpr ⟨hdata, rfl⟩⟩
  rw [PackedData.getMut_eq_get]
  exact PackedData.get_eq_some_iff.mpr hdata

/-- Witness for C2 at a concrete input: insert 7 into a fresh container and
read it back. -/
theorem round_trip_witness :
    ({ holes := [], data := [Slot.used 1 7], cap := 1 } : PackedData Nat).get ⟨0, 1⟩ =
        some 7 ∧
    ({ holes := [], data := [Slot.used 1 7], cap := 1 } : PackedData Nat).getMut ⟨0, 1⟩ =
        some 7 ∧
    ({ holes := [], data := [Slot.used 1 7], cap := 1 } : PackedData Nat).remove ⟨0, 1⟩ =
        .ok (7, PackedData.afterRemove
          { holes := [], data := [Slot.used 1 7], cap := 1 } 0 1) := by
  have hins : (PackedData.withMaxCapacity Nat 0).insert 7 =
      some (⟨0, 1⟩, { holes := [], data := [Slot.used 1 7], cap := 1 }) := rfl
  exact round_trip hins

/-- C3: Insert contract: with a non-empty hole set, `insert` pops the
minimum free index `i`, reads the generation `g` of the `Empty` slot there,
overwrites it with `Used(g, value)` and returns handle `(i, g)`; with an
empty hole set it appends a `Used` slot at the end at the initial
generation 1. -/
theorem insert_contract {T : Type} (s : PackedData T) (hInv : Inv s) (v : T) :
    (∀ i rest, s.holes = i :: rest →
      ∃ g, s.data[i]? = some (Slot.empty g) ∧ (∀ j ∈ s.holes, i ≤ j) ∧
        s.insert v = some (⟨i, g⟩,
          { s with holes := rest, data := s.data.set i (Slot.used g v) })) ∧
    (s.holes = [] →
      ∃ s', s.insert v = some (⟨s.data.length, 1⟩, s') ∧
        s'.data = s.data ++ [Slot.used 1 v] ∧ s'.holes = s.holes) := by
  constructor
  · intro i rest hh
    obtain ⟨g, hg⟩ := hInv.holesEmpty i (by rw [hh]; exact List.mem_cons_self i rest)
    refine ⟨g, hg, ?_, ?_⟩
    · intro j hj
      rw [hh] at hj
      rcases List.mem_cons.mp hj with rfl | hmem
      · exact le_refl j
      · have := hInv.sorted
        rw [hh] at this
        exact (List.sorted_cons.mp this).1 j hmem
    · exact PackedData.insert_cons hh hg v
  · intro hh
    exact ⟨_, PackedData.insert_nil hh v, rfl, rfl⟩

/-- Witness for C3 at a concrete input: the container reached by inserting 7
then removing it has the single hole 0 with an `Empty` slot at generation 2;
inserting 9 reuses index 0 at generation 2. -/
theorem insert_contract_witness :
    ({ holes := [0], data := [Slot.empty 2], cap := 1 } : PackedData Nat).insert 9 =
      some (⟨0, 2⟩, { holes := [], data := [Slot.used 2 9], cap := 1 }) := by
  obtain ⟨g, hg, -, hins⟩ :=
    (insert_contract ({ holes := [0], data := [Slot.empty 2], cap := 1 } : PackedData Nat)
      (reachable_inv ⟨0, [Op.ins 7, Op.rem ⟨0, 1⟩], rfl⟩) 9).1 0 [] rfl
  have hgv : g = 2 := by
    simp at hg
    omega
  subst hgv
  exact hins

/-- C8: Generation overflow wrap: a successful `remove` of a handle whose
slot holds the maximum representable generation `2^32 - 1` transitions the
slot to `Empty` at generation 1 (the minimum valid value), rather than
failing or overflowing. -/
theorem generation_overflow_wrap {T : Type} (s : PackedData T) (h : Item) (v : T)
    (hslot : s.data[h.index]? = some (Slot.used genMax v))
    (hgen : h.generation = genMax) :
    s.remove h = .ok (v, PackedData.afterRemove s h.index h.generation) ∧
    (PackedData.afterRemove s h.index h.generation).data[h.index]? =
      some (Slot.empty 1) := by
  have hslot' : s.data[h.index]? = some (Slot.used h.generation v) := by
    rw [hgen]; exact hslot
  refine ⟨PackedData.remove_ok_iff.mpr ⟨hslot', rfl⟩, ?_⟩
  have hlt := (List.getElem?_eq_some.mp hslot).1
  show (s.data.set h.index (Slot.empty (wrapInc h.generation)))[h.index]? =
    some (Slot.empty 1)
  rw [List.getElem?_set_self hlt]
  have hw : wrapInc h.generation = 1 := by
    unfold wrapInc
    rw [if_pos hgen]
  rw [hw]

/-- Witness for C8 at a concrete input: removing the handle of a slot at the
maximum generation resets that slot to `Empty` at generation 1. -/
theorem generation_overflow_wrap_witness :
    ({ holes := [], data := [Slot.used genMax 42], cap := 1 } : PackedData Nat).remove
        ⟨0, genMax⟩ =
      .ok (42, PackedData.afterRemove
        { holes := [], data := [Slot.used genMax 42], cap := 1 } 0 genMax) ∧
    (PackedData.afterRemove
        ({ holes := [], data := [Slot.used genMax 42], cap := 1 } : PackedData Nat)
        0 genMax).data[0]? = some (Slot.empty 1) :=
  generation_overflow_wrap
    { holes := [], data := [Slot.used genMax 42], cap := 1 } ⟨0, genMax⟩ 42 rfl rfl

/-- C9: Insert totality: in every reachable container state, `insert`
succeeds for every value, and every index in the hole set is within the
bounds of the data vector (so the slot indexing inside `insert` cannot
fail). -/
theorem insert_total {T : Type} (s : PackedData T) (hR : Reachable s) (v : T) :
    (∃ r, s.insert v = some r) ∧ ∀ i ∈ s.holes, i < s.data.length := by
  have hInv := reachable_inv hR
  constructor
  · cases hh : s.holes with
    | nil => exact ⟨_, PackedData.insert_nil hh v⟩
    | cons i rest =>
      obtain ⟨g, hg⟩ := hInv.holesEmpty i (by rw [hh]; exact List.mem_cons_self i rest)
      exact ⟨_, PackedData.insert_cons hh hg v⟩
  · intro i hi
    obtain ⟨g, hg⟩ := hInv.holesEmpty i hi
    exact (List.getElem?_eq_some.mp hg).1

/-- Witness for C9 at a concrete input: insert succeeds on the reachable
state with one hole. -/
theorem insert_total_witness :
    ∃ r, ({ holes := [0], data := [Slot.empty 2], cap := 1 } : PackedData Nat).insert 9 =
      some r :=
  (insert_total ({ holes := [0], data := [Slot.empty 2], cap := 1 } : PackedData Nat)
    ⟨0, [Op.ins 7, Op.rem ⟨0, 1⟩], rfl⟩ 9).1

/-- C1: Stale handle detection: after a successful `remove(h)`, every
subsequent `get(h)`, `get_mut(h)` and `remove(h)` fails, across any sequence
of later inserts and successful removes, as long as no generation
wraparound occurs at `h`'s index (`h.generation ≠ genMax` and no wrap during
the trace): the slot's generation stays strictly above `h.generation`, so
`h`'s `(index, generation)` pair can no longer match the live occupant. -/
theorem stale_handle_detection {T : Type} {s s₁ : PackedData T} {h : Item} {v : T}
    (hrem : s.remove h = .ok (v, s₁)) (hgen : h.generation ≠ genMax)
    {t : List (Op T)} {s₂ : PackedData T} (hexec : exec t s₁ = some s₂)
    (hnw : noWrapAt h.index t s₁ = true) :
    s₂.get h = none ∧ s₂.getMut h = none ∧
    ∀ r : T × PackedData T, s₂.remove h ≠ .ok r := by
  obtain ⟨hx, rfl⟩ := PackedData.remove_ok_iff.mp hrem
  have hlt := (List.getElem?_eq_some.mp hx).1
  have hg1 : genAt (PackedData.afterRemove s h.index h.generation) h.index =
      some (wrapInc h.generation) := by
    show ((s.data.set h.index (Slot.empty (wrapInc h.generation)))[h.index]?).map
      Slot.generation = some (wrapInc h.generation)
    rw [List.getElem?_set_self hlt]
    rfl
  obtain ⟨g₂, hg₂, hle⟩ := exec_genAt_mono hexec hg1 hnw
  have hgt : h.generation < g₂ := lt_of_lt_of_le (wrapInc_gt hgen) hle
  have hne : g₂ ≠ h.generation := fun e => absurd (e ▸ hgt) (lt_irrefl _)
  refine ⟨PackedData.get_none_of_genAt_ne hg₂ hne, ?_,
    PackedData.remove_ne_ok_of_genAt_ne hg₂ hne⟩
  rw [PackedData.getMut_eq_get]
  exact PackedData.get_none_of_genAt_ne hg₂ hne

/-- Witness for C1 at a concrete input: handle (0,1) removed, index 0 reused
by a later insert; the stale handle still fails against the new occupant. -/
theorem stale_handle_detection_witness :
    ({ holes := [], data := [Slot.used 2 9], cap := 1 } : PackedData Nat).get ⟨0, 1⟩ =
        none ∧
    ({ holes := [], data := [Slot.used 2 9], cap := 1 } : PackedData Nat).getMut ⟨0, 1⟩ =
        none := by
  have hrem : ({ holes := [], data := [Slot.used 1 7], cap := 1 } : PackedData Nat).remove
      ⟨0, 1⟩ = .ok (7, { holes := [0], data := [Slot.empty 2], cap := 1 }) := rfl
  have hgen : (1 : Nat) ≠ genMax := by decide
  have hexec : exec [Op.ins 9]
      ({ holes := [0], data := [Slot.empty 2], cap := 1 } : PackedData Nat) =
      some { holes := [], data := [Slot.used 2 9], cap := 1 } := rfl
  have hnw : noWrapAt (0 : Nat) [Op.ins (9 : Nat)]
      ({ holes := [0], data := [Slot.empty 2], cap := 1 } : PackedData Nat) = true := rfl
  have h := stale_handle_detection hrem hgen hexec hnw
  exact ⟨h.1, h.2.1⟩

/-- C6: Generation monotonicity: once `remove` succeeds on handle `h`, the
next handle issued for `h`'s index by any later insert (after any trace of
operations without a generation wrap at that index) carries a strictly
greater generation than `h`; in the wraparound case
(`h.generation = genMax`) the slot's generation instead resets to 1, the
minimum valid value. -/
theorem generation_monotonicity {T : Type} {s s₁ : PackedData T} {h : Item} {v : T}
    (hrem : s.remove h = .ok (v, s₁)) :
    (h.generation ≠ genMax →
      ∀ {t : List (Op T)} {s₂ : PackedData T}, exec t s₁ = some s₂ →
        noWrapAt h.index t s₁ = true →
        ∀ {v' : T} {h' : Item} {s₃ : PackedData T},
          s₂.insert v' = some (h', s₃) → h'.index = h.index →
          h.generation < h'.generation) ∧
    (h.generation = genMax → genAt s₁ h.index = some 1) := by
  obtain ⟨hx, rfl⟩ := PackedData.remove_ok_iff.mp hrem
  have hlt := (List.getElem?_eq_some.mp hx).1
  have hg1 : genAt (PackedData.afterRemove s h.index h.generation) h.index =
      some (wrapInc h.generation) := by
    show ((s.data.set h.index (Slot.empty (wrapInc h.generation)))[h.index]?).map
      Slot.generation = some (wrapInc h.generation)
    rw [List.getElem?_set_self hlt]
    rfl
  constructor
  · intro hgen t s₂ hexec hnw v' h' s₃ hins hidx
    obtain ⟨g₂, hg₂, hle⟩ := exec_genAt_mono hexec hg1 hnw
    have hgt : h.generation < g₂ := lt_of_lt_of_le (wrapInc_gt hgen) hle
    rcases insert_eq_some_elim hins with ⟨rest, slot0, hh, hx2, hgen2, rfl⟩ |
      ⟨hh, hidx2, hgen2, rfl⟩
    · rw [hidx] at hx2
      have hval : slot0.generation = g₂ := by
        have hg₂' : (s₂.data[h.index]?).map Slot.generation = some g₂ := hg₂
        rw [hx2] at hg₂'
        simpa using hg₂'
      rw [hgen2, hval]
      exact hgt
    · exfalso
      have hbound : h.index < s₂.data.length := genAt_lt_length hg₂
      rw [hidx] at hidx2
      rw [hidx2] at hbound
      exact lt_irrefl _ hbound
  · intro hgen
    rw [hg1, hgen]
    unfold wrapInc
    rw [if_pos rfl]

/-- Witness for C6 at a concrete input: removing handle (0,1) then
immediately reinserting issues handle (0,2) with a strictly greater
generation. -/
theorem generation_monotonicity_witness :
    ({ holes := [], data := [Slot.used 1 7], cap := 1 } : PackedData Nat).remove ⟨0, 1⟩ =
      .ok (7, { holes := [0], data := [Slot.empty 2], cap := 1 }) ∧ (1 : Nat) < 2 := by
  have hrem : ({ holes := [], data := [Slot.used 1 7], cap := 1 } : PackedData Nat).remove
      ⟨0, 1⟩ = .ok (7, { holes := [0], data := [Slot.empty 2], cap := 1 }) := rfl
  refine ⟨hrem, ?_⟩
  have hgen : (1 : Nat) ≠ genMax := by decide
  have hexec : exec ([] : List (Op Nat))
      ({ holes := [0], data := [Slot.empty 2], cap := 1 } : PackedData Nat) =
      some { holes := [0], data := [Slot.empty 2], cap := 1 } := rfl
  have hnw : noWrapAt (0 : Nat) ([] : List (Op Nat))
      ({ holes := [0], data := [Slot.empty 2], cap := 1 } : PackedData Nat) = true := rfl
  have hins : ({ holes := [0], data := [Slot.empty 2], cap := 1 } : PackedData Nat).insert
      9 = some (⟨0, 2⟩, { holes := [], data := [Slot.used 2 9], cap := 1 }) := rfl
  have hidx : (⟨0, 2⟩ : Item).index = (⟨0, 1⟩ : Item).index := rfl
  exact (generation_monotonicity hrem).1 hgen hexec hnw hins hidx

/-- C4: Structural invariant of every reachable state:
`len() = data.len() - holes.len()`, `holes.len() ≤ data.len()`,
`len() ≤ data.len() ≤ capacity()`, every hole index addresses an `Empty`
slot, and every `Empty` slot's index occurs in the hole set exactly once. -/
theorem structural_invariant {T : Type} (s : PackedData T) (hR : Reachable s) :
    s.len = s.data.length - s.holes.length ∧
    s.holes.length ≤ s.data.length ∧
    s.len ≤ s.data.length ∧ s.data.length ≤ s.capacity ∧
    (∀ i ∈ s.holes, ∃ g, s.data[i]? = some (Slot.empty g)) ∧
    (∀ i g, s.data[i]? = some (Slot.empty g) → s.holes.count i = 1) := by
  have hInv := reachable_inv hR
  have hbound : ∀ i ∈ s.holes, i < s.data.length := by
    intro i hi
    obtain ⟨g, hg⟩ := hInv.holesEmpty i hi
    exact (List.getElem?_eq_some.mp hg).1
  have hlen : s.holes.length ≤ s.data.length := by
    have hcard : s.holes.toFinset.card = s.holes.length :=
      List.toFinset_card_of_nodup hInv.nodup
    have hsub : s.holes.toFinset ⊆ Finset.range s.data.length := by
      intro i hi
      exact Finset.mem_range.mpr (hbound i (List.mem_toFinset.mp hi))
    calc s.holes.length = s.holes.toFinset.card := hcard.symm
      _ ≤ (Finset.range s.data.length).card := Finset.card_le_card hsub
      _ = s.data.length := Finset.card_range _
  refine ⟨rfl, hlen, Nat.sub_le _ _, hInv.capOk, hInv.holesEmpty, ?_⟩
  intro i g hg
  exact List.count_eq_one_of_mem hInv.nodup (hInv.emptyHoles i g hg)

/-- Witness for C4 at a concrete input: the invariant holds in the state
reached by inserting 7, 8 and removing the first handle. -/
theorem structural_invariant_witness :
    ({ holes := [0], data := [Slot.empty 2, Slot.used 1 8], cap := 2 } : PackedData Nat).len =
        2 - 1 ∧
    ({ holes := [0], data := [Slot.empty 2, Slot.used 1 8], cap := 2 } :
        PackedData Nat).holes.count 0 = 1 := by
  have h := structural_invariant
    ({ holes := [0], data := [Slot.empty 2, Slot.used 1 8], cap := 2 } : PackedData Nat)
    ⟨0, [Op.ins 7, Op.ins 8, Op.rem ⟨0, 1⟩], rfl⟩
  exact ⟨h.1, h.2.2.2.2.2 0 2 rfl⟩

/-- C5 counterexample: `remove` mutates before it validates. On the
reachable one-element container, a remove with a wrong generation fails,
yet the failed call has already swapped the slot to `Empty` with a bumped
generation and pushed the index into the hole set: the state at the panic
point differs from the state before the call. -/
theorem remove_failure_mutates_counterexample :
    exec [Op.ins 7] (PackedData.withMaxCapacity Nat 0) =
      some { holes := [], data := [Slot.used 1 7], cap := 1 } ∧
    ({ holes := [], data := [Slot.used 1 7], cap := 1 } : PackedData Nat).remove ⟨0, 2⟩ =
      .error { holes := [0], data := [Slot.empty 2], cap := 1 } ∧
    ({ holes := [0], data := [Slot.empty 2], cap := 1 } : PackedData Nat) ≠
      { holes := [], data := [Slot.used 1 7], cap := 1 } := by
  refine ⟨rfl, rfl, ?_⟩
  decide

/-- C5 amended: `remove` mutates first and validates after. With the
handle's index in bounds it unconditionally swaps the slot to `Empty` at the
incremented generation and records the index in the hole set; when the
validation then fails (slot `Empty` or generation mismatch) the error state
is that mutated state. Only an out-of-bounds index fails before any
mutation, leaving the state unchanged. -/
theorem remove_failure_behavior {T : Type} :
    (∀ (s : PackedData T) (h : Item) (slot0 : Slot T),
      s.data[h.index]? = some slot0 →
      (∀ w : T, slot0 ≠ Slot.used h.generation w) →
      s.remove h = .error (PackedData.afterRemove s h.index slot0.generation)) ∧
    (∀ (s : PackedData T) (h : Item),
      s.data[h.index]? = none → s.remove h = .error s) := by
  constructor
  · intro s h slot0 hx hfail
    cases slot0 with
    | empty g => exact PackedData.remove_empty hx
    | used g w =>
      have hne : g ≠ h.generation := fun e => hfail w (by rw [e])
      rw [PackedData.remove_used hx, if_neg hne]
      rfl
  · intro s h hx
    exact PackedData.remove_oob hx

/-- Witness for C5's amended theorem at a concrete input. -/
theorem remove_failure_behavior_witness :
    ({ holes := [], data := [Slot.used 1 7], cap := 1 } : PackedData Nat).remove ⟨0, 2⟩ =
      .error (PackedData.afterRemove
        { holes := [], data := [Slot.used 1 7], cap := 1 } 0 1) :=
  (remove_failure_behavior (T := Nat)).1
    { holes := [], data := [Slot.used 1 7], cap := 1 } ⟨0, 2⟩ (Slot.used 1 7) rfl
    (by simp)

/-- C7 counterexample: on the reachable state whose slot 0 is `Empty` at
generation 2, `insert` returns handle (0, 2) and stores generation 2 — the
generation is not strictly greater than the one the `Empty` slot held: the
bump happens at remove time, not at insert time. -/
theorem insert_reuse_no_bump_counterexample :
    exec [Op.ins 7, Op.rem ⟨0, 1⟩] (PackedData.withMaxCapacity Nat 0) =
      some { holes := [0], data := [Slot.empty 2], cap := 1 } ∧
    genAt ({ holes := [0], data := [Slot.empty 2], cap := 1 } : PackedData Nat) 0 =
      some 2 ∧
    ({ holes := [0], data := [Slot.empty 2], cap := 1 } : PackedData Nat).insert 9 =
      some (⟨0, 2⟩, { holes := [], data := [Slot.used 2 9], cap := 1 }) ∧
    genAt ({ holes := [], data := [Slot.used 2 9], cap := 1 } : PackedData Nat) 0 =
      some 2 ∧
    ¬ (2 : Nat) < 2 :=
  ⟨rfl, rfl, rfl, rfl, by decide⟩

/-- C7 amended: when `insert` reuses a freed slot it leaves the generation
unchanged: the returned handle and the overwritten slot carry exactly the
generation the `Empty` slot held immediately before the insert (the bump
having happened at remove time). -/
theorem insert_reuse_generation_unchanged {T : Type} (s : PackedData T) (hInv : Inv s)
    (i : Nat) (rest : List Nat) (hh : s.holes = i :: rest) (v : T) :
    ∃ g s', s.data[i]? = some (Slot.empty g) ∧ s.insert v = some (⟨i, g⟩, s') ∧
      genAt s' i = some g := by
  obtain ⟨g, hg⟩ := hInv.holesEmpty i (by rw [hh]; exact List.mem_cons_self i rest)
  have hlt := (List.getElem?_eq_some.mp hg).1
  refine ⟨g, _, hg, PackedData.insert_cons hh hg v, ?_⟩
  show ((s.data.set i (Slot.used (Slot.empty g : Slot T).generation v))[i]?).map
    Slot.generation = some g
  rw [List.getElem?_set_self hlt]
  rfl

theorem step_length_mono {T : Type} {op : Op T} {s s' : PackedData T}
    (hstep : step op s = some s') : s.data.length ≤ s'.data.length := by
  cases op with
  | ins v =>
    simp only [step] at hstep
    cases hi : s.insert v with
    | none => rw [hi] at hstep; cases hstep
    | some r =>
      obtain ⟨h, s''⟩ := r
      rw [hi] at hstep
      simp only [Option.map_some', Option.some.injEq] at hstep
      subst hstep
      rcases insert_eq_some_elim hi with ⟨rest, slot0, hh, hx, hgen, rfl⟩ |
        ⟨hh, hidx, hgen, rfl⟩
      · simp
      · simp [PackedData.vecPush]
  | rem h =>
    simp only [step] at hstep
    cases hr : s.remove h with
    | error e => rw [hr] at hstep; cases hstep
    | ok r =>
      obtain ⟨v, s''⟩ := r
      rw [hr] at hstep
      simp only [Option.some.injEq] at hstep
      subst hstep
      obtain ⟨hx, rfl⟩ := PackedData.remove_ok_iff.mp hr
      simp [PackedData.afterRemove]

theorem exec_length_mono {T : Type} {t : List (Op T)} {s s' : PackedData T}
    (hexec : exec t s = some s') : s.data.length ≤ s'.data.length := by
  induction t generalizing s with
  | nil =>
    unfold exec at hexec
    simp only [Option.some.injEq] at hexec
    exact hexec ▸ le_refl _
  | cons op t ih =>
    unfold exec at hexec
    cases hs : step op s with
    | none => rw [hs] at hexec; cases hexec
    | some s1 =>
      rw [hs] at hexec
      exact le_trans (step_length_mono hs) (ih hexec)

theorem step_ins_length_pos {T : Type} {v : T} {s s' : PackedData T}
    (hstep : step (Op.ins v) s = some s') : 1 ≤ s'.data.length := by
  simp only [step] at hstep
  cases hi : s.insert v with
  | none => rw [hi] at hstep; cases hstep
  | some r =>
    obtain ⟨h, s''⟩ := r
    rw [hi] at hstep
    simp only [Option.map_some', Option.some.injEq] at hstep
    subst hstep
    rcases insert_eq_some_elim hi with ⟨rest, slot0, hh, hx, hgen, rfl⟩ |
      ⟨hh, hidx, hgen, rfl⟩
    · have hlt := (List.getElem?_eq_some.mp hx).1
      simp only [List.length_set]
      omega
    · simp [PackedData.vecPush]

theorem exec_ins_mem_length {T : Type} {t : List (Op T)} {s s' : PackedData T}
    (hexec : exec t s = some s') {v : T} (hmem : Op.ins v ∈ t) :
    1 ≤ s'.data.length := by
  induction t generalizing s with
  | nil => cases hmem
  | cons op t ih =>
    unfold exec at hexec
    cases hs : step op s with
    | none => rw [hs] at hexec; cases hexec
    | some s1 =>
      rw [hs] at hexec
      rcases List.mem_cons.mp hmem with heq | hmem'
      · have h1 : 1 ≤ s1.data.length := step_ins_length_pos (heq ▸ hs)
        exact le_trans h1 (exec_length_mono hexec)
      · exact ih hexec hmem'

theorem exec_no_ins_fixes_init {T : Type} {n : Nat} {t : List (Op T)} {s : PackedData T}
    (hexec : exec t (PackedData.withMaxCapacity T n) = some s)
    (hno : ∀ v : T, Op.ins v ∉ t) : s = PackedData.withMaxCapacity T n := by
  cases t with
  | nil =>
    unfold exec at hexec
    simp only [Option.some.injEq] at hexec
    exact hexec.symm
  | cons op t' =>
    cases op with
    | ins v => exact absurd (List.mem_cons_self _ _) (hno v)
    | rem h =>
      unfold exec at hexec
      have hnone : step (Op.rem h) (PackedData.withMaxCapacity T n) = none := by
        have hoob : (PackedData.withMaxCapacity T n).data[h.index]? = none :=
          List.getElem?_nil
        simp only [step]
        rw [PackedData.remove_oob hoob]
      rw [hnone] at hexec
      cases hexec

/-- C10: `is_empty()` is `data.is_empty()`: it is true iff the backing
storage holds no slots, equivalently iff no insert was ever executed on the
container; after inserting and then removing everything, `len() = 0` while
`is_empty()` is still false, so `is_empty()` is not `len() = 0`. -/
theorem isEmpty_iff {T : Type} :
    (∀ s : PackedData T, s.isEmpty = true ↔ s.data = []) ∧
    (∀ (n : Nat) (t : List (Op T)) (s : PackedData T),
      exec t (PackedData.withMaxCapacity T n) = some s →
      (s.isEmpty = true ↔ ∀ v : T, Op.ins v ∉ t)) ∧
    (exec [Op.ins 7, Op.rem ⟨0, 1⟩] (PackedData.withMaxCapacity Nat 0) =
        some { holes := [0], data := [Slot.empty 2], cap := 1 } ∧
      ({ holes := [0], data := [Slot.empty 2], cap := 1 } : PackedData Nat).len = 0 ∧
      ({ holes := [0], data := [Slot.empty 2], cap := 1 } : PackedData Nat).isEmpty =
        false) := by
  refine ⟨?_, ?_, rfl, rfl, rfl⟩
  · intro s
    exact List.isEmpty_iff
  · intro n t s hexec
    constructor
    · intro hempty v hmem
      have hlen := exec_ins_mem_length hexec hmem
      have hnil : s.data = [] := List.isEmpty_iff.mp hempty
      rw [hnil] at hlen
      simp at hlen
    · intro hno
      rw [exec_no_ins_fixes_init hexec hno]
      rfl

/-- Witness for C10 at a concrete input: the run that inserts 7 and removes
it again ends with a non-empty backing store, and the run is correctly
classified as having performed an insert. -/
theorem isEmpty_iff_witness :
    ({ holes := [0], data := [Slot.empty 2], cap := 1 } : PackedData Nat).isEmpty =
      false ∧
    ¬ (∀ v : Nat, Op.ins v ∉ [Op.ins 7, Op.rem ⟨0, 1⟩]) := by
  have h := (isEmpty_iff (T := Nat)).2.1 0 [Op.ins 7, Op.rem ⟨0, 1⟩]
    { holes := [0], data := [Slot.empty 2], cap := 1 } rfl
  refine ⟨rfl, fun hall => ?_⟩
  have := h.mpr hall
  exact absurd this (by decide)

/-- Witness for C7's amended theorem at a concrete input. -/
theorem insert_reuse_generation_unchanged_witness :
    ∃ g s',
      ({ holes := [0], data := [Slot.empty 2], cap := 1 } : PackedData Nat).data[0]? =
        some (Slot.empty g) ∧
      ({ holes := [0], data := [Slot.empty 2], cap := 1 } : PackedData Nat).insert 9 =
        some (⟨0, g⟩, s') ∧ genAt s' 0 = some g :=
  insert_reuse_generation_unchanged
    ({ holes := [0], data := [Slot.empty 2], cap := 1 } : PackedData Nat)
    (reachable_inv ⟨0, [Op.ins 7, Op.rem ⟨0, 1⟩], rfl⟩) 0 [] rfl 9

end DePacked
